import Mathlib

/-!
Verification of the mecanum-drive controller firmware: dead-zone filtering,
mecanum motion mixing with single-precision normalization, direction-byte
packing for the four wheel motors, the servo state machines and the
electromagnet control, and the producer/consumer task split.

Machine arithmetic is embedded explicitly: C `int` values are modelled as ℤ,
`uint8_t` values as ℕ with masking, and IEEE single-precision (`float`)
arithmetic as exact rationals rounded by `fl32`, round-to-nearest, ties to
even, with a 24-bit significand.  The values flowing through the mixer stay
far inside the normal range of binary32, so overflow and subnormal rounding
never arise and `fl32` is an exact model of each C float operation involved.
-/

namespace Mapper

/-- Round a rational to the nearest integer, ties going to the even integer.
This is the rounding used by IEEE 754 arithmetic in the default mode. -/
def roundNE (q : ℚ) : ℤ :=
  if q - ⌊q⌋ < 1/2 then ⌊q⌋
  else if 1/2 < q - ⌊q⌋ then ⌊q⌋ + 1
  else if ⌊q⌋ % 2 = 0 then ⌊q⌋ else ⌊q⌋ + 1

/-- Number of halvings needed to bring n down to 1 or 0, i.e. the floor of
the base-2 logarithm for positive n.  The first argument is recursion fuel
so that the kernel can evaluate the function on literals. -/
def log2fuel : ℕ → ℕ → ℕ
  | 0, _ => 0
  | f + 1, n => if n ≤ 1 then 0 else log2fuel f (n / 2) + 1

/-- The binade of a nonzero rational: the integer e with 2 ^ e ≤ |q| < 2 ^ (e+1).
Computed from the binary digit counts of the numerator and denominator,
with one comparison to settle the off-by-one case. -/
def ilog2 (q : ℚ) : ℤ :=
  let c : ℤ := (log2fuel q.num.natAbs q.num.natAbs : ℤ) - (log2fuel q.den q.den : ℤ)
  if (2 : ℚ) ^ c ≤ |q| then c else c - 1

/-- Exact model of rounding a real (rational) value to IEEE binary32:
round to nearest, ties to even, 24-bit significand.  Exponent range is
unbounded, which is faithful for this firmware since every value involved
is far from overflow and from the subnormal range. -/
def fl32 (q : ℚ) : ℚ :=
  if q = 0 then 0
  else ((roundNE (q * 2 ^ ((23 : ℤ) - ilog2 q)) : ℚ)) * 2 ^ (ilog2 q - 23)

/-- C conversion from a float to int: truncation toward zero. -/
def cint (q : ℚ) : ℤ :=
  if 0 ≤ q then ⌊q⌋ else ⌈q⌉

/-! ### Constants from the firmware source -/

/-- Speed cap in normal mode. -/
def NORMAL_SPEED : ℤ := 220

/-- Speed cap while the precision-mode button is held. -/
def PRECISION_SPEED : ℤ := 152

/-- Dead-zone threshold applied to each stick axis. -/
def DEADZONE : ℤ := 200

/-- Two-bit motor direction code: coast. -/
def OFF : ℕ := 0b00

/-- Two-bit motor direction code: forward. -/
def FWD : ℕ := 0b01

/-- Two-bit motor direction code: reverse. -/
def REV : ℕ := 0b10

/-- PWM duty used when the electromagnet is engaged. -/
def EMAG_PWM_DUTY : ℕ := 165

/-- Wiring-reversal flag of the front-left motor. -/
def M1_REV : Bool := false

/-- Wiring-reversal flag of the front-right motor. -/
def M2_REV : Bool := true

/-- Wiring-reversal flag of the back-left motor. -/
def M3_REV : Bool := false

/-- Wiring-reversal flag of the back-right motor. -/
def M4_REV : Bool := false

/-- Per-tick step of the second servo, in degrees. -/
def servo2Step : ℤ := 5

/-- Minimum analog trigger value considered pressed in the driving task. -/
def analogThreshold : ℤ := 100

/-! ### Controller input adapter and motion mixer -/

/-- Dead-zone filter: axis values of magnitude below `DEADZONE` become 0. -/
def dz (v : ℤ) : ℤ :=
  if |v| < DEADZONE then 0 else v

/-- The four signed wheel-speed commands produced by one mixer invocation. -/
structure Wheels where
  fl : ℤ
  fr : ℤ
  bl : ℤ
  br : ℤ

/-- Raw front-left mecanum combination. -/
def rawFL (ly lx rx : ℤ) : ℤ := ly + lx + rx

/-- Raw front-right mecanum combination. -/
def rawFR (ly lx rx : ℤ) : ℤ := ly - lx - rx

/-- Raw back-left mecanum combination. -/
def rawBL (ly lx rx : ℤ) : ℤ := ly - lx + rx

/-- Raw back-right mecanum combination. -/
def rawBR (ly lx rx : ℤ) : ℤ := ly + lx - rx

/-- Largest magnitude among the four raw wheel values. -/
def maxVal (ly lx rx : ℤ) : ℤ :=
  max (max |rawFL ly lx rx| |rawFR ly lx rx|) (max |rawBL ly lx rx| |rawBR ly lx rx|)

/-- The float speed cap selected by the precision-mode button. -/
def desiredMax (precision : Bool) : ℚ :=
  if precision then (PRECISION_SPEED : ℚ) else (NORMAL_SPEED : ℚ)

/-- The integer speed cap selected by the precision-mode button. -/
def cap (precision : Bool) : ℤ :=
  if precision then PRECISION_SPEED else NORMAL_SPEED

/-- The float scale factor of the mixer: the float quotient cap/maxVal when
maxVal exceeds the cap, and 1.0 otherwise. -/
def factor (ly lx rx : ℤ) (precision : Bool) : ℚ :=
  if desiredMax precision < (maxVal ly lx rx : ℚ)
  then fl32 (desiredMax precision / (maxVal ly lx rx : ℚ))
  else 1

/-- One wheel command: the raw value is promoted to float, multiplied by the
scale factor with float rounding, and assigned to an int with truncation. -/
def mixWheel (raw : ℤ) (f : ℚ) : ℤ :=
  cint (fl32 ((raw : ℚ) * f))

/-- The mixer after dead-zone filtering: raw mecanum combinations, dynamic
normalization against the selected cap, truncation to int commands. -/
def mixCore (ly lx rx : ℤ) (precision : Bool) : Wheels :=
  ⟨mixWheel (rawFL ly lx rx) (factor ly lx rx precision),
   mixWheel (rawFR ly lx rx) (factor ly lx rx precision),
   mixWheel (rawBL ly lx rx) (factor ly lx rx precision),
   mixWheel (rawBR ly lx rx) (factor ly lx rx precision)⟩

/-- Button 0x0020 selects precision mode. -/
def precisionMode (buttons : ℕ) : Bool :=
  (buttons &&& 0x0020) != 0

/-- The whole per-tick motor mixing of the bluetooth task: negate the right
stick X axis, apply the dead zone to each axis, invert the forward axis, then
run the mecanum mixer. -/
def mix (raw_lx raw_ly raw_rx : ℤ) (buttons : ℕ) : Wheels :=
  mixCore (-(dz raw_ly)) (dz raw_lx) (dz (-raw_rx)) (precisionMode buttons)

/-! ### Direction-byte packing -/

/-- Write the front-left direction code into bits 2 and 3 of the shared byte. -/
def setM1dir (s dir : ℕ) : ℕ :=
  let d := if M1_REV then dir ^^^ 0xFF else dir
  let s1 := s &&& 0xF3
  ((s1 ||| (d <<< 2)) &&& 0xFF)

/-- Write the front-right direction code into bits 1 and 4 of the shared byte.
The wiring-reversal flag of this motor inverts the code first. -/
def setM2dir (s dir : ℕ) : ℕ :=
  let d := if M2_REV then dir ^^^ 0xFF else dir
  let s1 := s &&& 0xED
  let s2 := s1 ||| (d &&& 0b10)
  s2 ||| ((d &&& 0b01) <<< 4)

/-- Write the back-left direction code into bits 5 and 7 of the shared byte. -/
def setM3dir (s dir : ℕ) : ℕ :=
  let d := if M3_REV then dir ^^^ 0xFF else dir
  let s1 := s &&& 0x5F
  let s2 := s1 ||| ((d &&& 0b10) <<< 4)
  s2 ||| ((d &&& 0b01) <<< 7)

/-- Write the back-right direction code into bits 6 and 0 of the shared byte. -/
def setM4dir (s dir : ℕ) : ℕ :=
  let d := if M4_REV then dir ^^^ 0xFF else dir
  let s1 := s &&& 0xBE
  let s2 := s1 ||| ((d &&& 0b10) <<< 5)
  s2 ||| (d &&& 0b01)

/-- Read back the stored 2-bit field of the front-left motor (bits 2-3). -/
def getM1code (s : ℕ) : ℕ := (s >>> 2) &&& 0b11

/-- Read back the stored 2-bit field of the front-right motor (bits 1 and 4). -/
def getM2code (s : ℕ) : ℕ := (s &&& 0b10) ||| ((s >>> 4) &&& 0b01)

/-- Read back the stored 2-bit field of the back-left motor (bits 5 and 7). -/
def getM3code (s : ℕ) : ℕ := ((s >>> 4) &&& 0b10) ||| ((s >>> 7) &&& 0b01)

/-- Read back the stored 2-bit field of the back-right motor (bits 6 and 0). -/
def getM4code (s : ℕ) : ℕ := ((s >>> 5) &&& 0b10) ||| (s &&& 0b01)

/-- The C cast (uint8_t)abs(value) feeding each PWM write. -/
def uint8cast (v : ℤ) : ℕ := v.natAbs % 256

/-- Signed driver of motor 1: speed byte and direction code. -/
def setM1Signed (value : ℤ) : ℕ × ℕ :=
  if value > 0 then (uint8cast value, FWD)
  else if value < 0 then (uint8cast value, REV)
  else (0, OFF)

/-- Signed driver of motor 2: speed byte and direction code. -/
def setM2Signed (value : ℤ) : ℕ × ℕ :=
  if value > 0 then (uint8cast value, FWD)
  else if value < 0 then (uint8cast value, REV)
  else (0, OFF)

/-- Signed driver of motor 3: speed byte and direction code. -/
def setM3Signed (value : ℤ) : ℕ × ℕ :=
  if value > 0 then (uint8cast value, FWD)
  else if value < 0 then (uint8cast value, REV)
  else (0, OFF)

/-- Signed driver of motor 4: speed byte and direction code. -/
def setM4Signed (value : ℤ) : ℕ × ℕ :=
  if value > 0 then (uint8cast value, FWD)
  else if value < 0 then (uint8cast value, REV)
  else (0, OFF)

/-! ### Servo state machines and the two tasks -/

/-- D-pad update of the servo-1 latch in the bluetooth task: bit 0 alone
latches +1, bit 1 alone latches -1, anything else keeps the latch. -/
def updateServoCmd (cmd : ℤ) (dpad : ℕ) : ℤ :=
  if (dpad &&& 0x01) ≠ 0 ∧ (dpad &&& 0x02) = 0 then 1
  else if (dpad &&& 0x02) ≠ 0 ∧ (dpad &&& 0x01) = 0 then -1
  else cmd

/-- Servo-1 output of the driving task: 180 when the latch is +1, 0 when the
latch is -1, otherwise the angle is held. -/
def servo1Target (cmd current : ℤ) : ℤ :=
  if cmd = 1 then 180 else if cmd = -1 then 0 else current

/-- One driving-task update of the servo-2 angle from throttle and brake. -/
def servo2Tick (angle throttle brake : ℤ) : ℤ :=
  if throttle > analogThreshold ∧ brake ≤ analogThreshold then
    (if angle < 180 then (if angle + servo2Step > 180 then 180 else angle + servo2Step)
     else angle)
  else if brake > analogThreshold ∧ throttle ≤ analogThreshold then
    (if angle > 0 then (if angle - servo2Step < 0 then 0 else angle - servo2Step)
     else angle)
  else angle

/-- Servo-2 angle after a run of ticks with the given throttle/brake pairs. -/
def servo2Run (L : List (ℤ × ℤ)) (a : ℤ) : ℤ :=
  L.foldl (fun ang p => servo2Tick ang p.1 p.2) a

/-- One polled controller snapshot. -/
structure Snapshot where
  axisX : ℤ
  axisY : ℤ
  axisRX : ℤ
  buttons : ℕ
  dpad : ℕ
  throttle : ℤ
  brake : ℤ

/-- The firmware state shared between the two tasks, plus the actuator
outputs each task drives. -/
structure RobotState where
  m1_cmd : ℤ
  m2_cmd : ℤ
  m3_cmd : ℤ
  m4_cmd : ℤ
  servo_command : ℤ
  throttle_value : ℤ
  brake_value : ℤ
  emag_in1 : Bool
  emag_duty : ℕ
  current_servo_angle : ℤ
  servo2_angle : ℤ
  motor_state : ℕ

/-- One successful iteration of the bluetooth (producer) task on a snapshot:
motor mixing, electromagnet level control, servo-1 latch update, and the
throttle/brake copy. -/
def producerTick (snap : Snapshot) (s : RobotState) : RobotState :=
  let w := mix snap.axisX snap.axisY snap.axisRX snap.buttons
  { s with
    m1_cmd := w.fl
    m2_cmd := w.fr
    m3_cmd := w.bl
    m4_cmd := w.br
    emag_in1 := if snap.dpad &&& 0x04 ≠ 0 then true
      else if snap.dpad &&& 0x08 ≠ 0 then false else s.emag_in1
    emag_duty := if snap.dpad &&& 0x04 ≠ 0 then EMAG_PWM_DUTY
      else if snap.dpad &&& 0x08 ≠ 0 then 0 else s.emag_duty
    servo_command := updateServoCmd s.servo_command snap.dpad
    throttle_value := snap.throttle
    brake_value := snap.brake }

/-- One iteration of the driving (consumer) task: motor writes through the
shared direction byte, servo-1 write from the latch, servo-2 stepping. -/
def consumerTick (s : RobotState) : RobotState :=
  let st1 := setM1dir s.motor_state (setM1Signed s.m1_cmd).2
  let st2 := setM2dir st1 (setM2Signed s.m2_cmd).2
  let st3 := setM3dir st2 (setM3Signed s.m3_cmd).2
  let st4 := setM4dir st3 (setM4Signed s.m4_cmd).2
  { s with
    motor_state := st4
    current_servo_angle := servo1Target s.servo_command s.current_servo_angle
    servo2_angle := servo2Tick s.servo2_angle s.throttle_value s.brake_value }

/-- A controller slot as the bluetooth task sees it. -/
structure Gamepad where
  connected : Bool
  hasData : Bool

/-- The loop guard: a non-null pointer that is connected and has fresh data. -/
def validSlot : Option Gamepad → Bool
  | none => false
  | some g => g.connected && g.hasData

/-- The slot-selection loop of the bluetooth task: scan the slot array in
index order and stop at the first valid slot. -/
def selectController : List (Option Gamepad) → Option (ℕ × Gamepad)
  | [] => none
  | none :: rest => (selectController rest).map (fun p => (p.1 + 1, p.2))
  | some g :: rest =>
    if g.connected && g.hasData then some (0, g)
    else (selectController rest).map (fun p => (p.1 + 1, p.2))

theorem roundNE_err (q : ℚ) : |(roundNE q : ℚ) - q| ≤ 1/2 := by
  have h1 : (⌊q⌋ : ℚ) ≤ q := Int.floor_le q
  have h2 : q < ⌊q⌋ + 1 := Int.lt_floor_add_one q
  unfold roundNE
  split_ifs with ha hb hc
  · rw [abs_le]; constructor <;> push_cast <;> linarith
  · rw [abs_le]; constructor <;> push_cast <;> linarith
  · rw [abs_le]; constructor <;> push_cast <;> linarith
  · rw [abs_le]; constructor <;> push_cast <;> linarith

theorem roundNE_intCast (n : ℤ) : roundNE (n : ℚ) = n := by
  unfold roundNE
  rw [Int.floor_intCast]
  simp

theorem log2fuel_spec (f : ℕ) : ∀ n : ℕ, 1 ≤ n → n ≤ f →
    2 ^ (log2fuel f n) ≤ n ∧ n < 2 ^ (log2fuel f n + 1) := by
  induction f with
  | zero => intro n h1 hf; omega
  | succ f ih =>
    intro n h1 hf
    by_cases hn : n ≤ 1
    · have : n = 1 := by omega
      subst this
      simp [log2fuel]
    · have h2 : 2 ≤ n := by omega
      have hrec : 1 ≤ n / 2 := by omega
      have hfuel : n / 2 ≤ f := by omega
      obtain ⟨ih1, ih2⟩ := ih (n / 2) hrec hfuel
      have hval : log2fuel (f + 1) n = log2fuel f (n / 2) + 1 := by
        simp only [log2fuel]
        rw [if_neg hn]
      rw [hval]
      have e1 : 2 ^ (log2fuel f (n / 2) + 1) = 2 * 2 ^ (log2fuel f (n / 2)) := by ring
      have e2 : 2 ^ (log2fuel f (n / 2) + 1 + 1) = 4 * 2 ^ (log2fuel f (n / 2)) := by ring
      omega

theorem ilog2_spec (q : ℚ) (hq : q ≠ 0) :
    (2 : ℚ) ^ ilog2 q ≤ |q| ∧ |q| < 2 ^ (ilog2 q + 1) := by
  have hnum : q.num ≠ 0 := Rat.num_ne_zero.mpr hq
  have hn1 : 1 ≤ q.num.natAbs := by
    have := Int.natAbs_pos.mpr hnum
    omega
  have hd0 : 0 < q.den := q.pos
  obtain ⟨sn1, sn2⟩ := log2fuel_spec q.num.natAbs q.num.natAbs hn1 le_rfl
  obtain ⟨sd1, sd2⟩ := log2fuel_spec q.den q.den (by omega) le_rfl
  set bn := log2fuel q.num.natAbs q.num.natAbs with hbn
  set bd := log2fuel q.den q.den with hbd
  have hdenpos : (0 : ℚ) < (q.den : ℚ) := by exact_mod_cast hd0
  have habs : |q| = (q.num.natAbs : ℚ) / (q.den : ℚ) := by
    conv_lhs => rw [← Rat.num_div_den q]
    rw [abs_div]
    congr 1
    · rw [Int.cast_natAbs, Int.cast_abs]
    · exact abs_of_pos hdenpos
  have hq2 : ∀ k : ℕ, (2 : ℚ) ^ (k : ℤ) = ((2 ^ k : ℕ) : ℚ) := by
    intro k
    rw [zpow_natCast]
    push_cast
    ring
  have hA : |q| < (2 : ℚ) ^ ((bn : ℤ) - bd + 1) := by
    rw [habs, div_lt_iff hdenpos]
    have h1 : ((q.num.natAbs : ℚ)) < ((2 ^ (bn + 1) : ℕ) : ℚ) := by exact_mod_cast sn2
    have h2 : ((2 ^ bd : ℕ) : ℚ) ≤ (q.den : ℚ) := by exact_mod_cast sd1
    have hsplit : (2 : ℚ) ^ ((bn : ℤ) - bd + 1) * ((2 ^ bd : ℕ) : ℚ) = ((2 ^ (bn + 1) : ℕ) : ℚ) := by
      rw [← hq2 bd, ← hq2 (bn + 1), ← zpow_add₀ (two_ne_zero)]
      congr 1
      push_cast
      ring
    calc (q.num.natAbs : ℚ) < ((2 ^ (bn + 1) : ℕ) : ℚ) := h1
      _ = (2 : ℚ) ^ ((bn : ℤ) - bd + 1) * ((2 ^ bd : ℕ) : ℚ) := hsplit.symm
      _ ≤ (2 : ℚ) ^ ((bn : ℤ) - bd + 1) * (q.den : ℚ) := by
          apply mul_le_mul_of_nonneg_left h2 (by positivity)
  have hB : (2 : ℚ) ^ ((bn : ℤ) - bd - 1) < |q| := by
    rw [habs, lt_div_iff hdenpos]
    have h1 : ((2 ^ bn : ℕ) : ℚ) ≤ (q.num.natAbs : ℚ) := by exact_mod_cast sn1
    have h2 : ((q.den : ℚ)) < ((2 ^ (bd + 1) : ℕ) : ℚ) := by exact_mod_cast sd2
    have hsplit : (2 : ℚ) ^ ((bn : ℤ) - bd - 1) * ((2 ^ (bd + 1) : ℕ) : ℚ) = ((2 ^ bn : ℕ) : ℚ) := by
      rw [← hq2 (bd + 1), ← hq2 bn, ← zpow_add₀ (two_ne_zero)]
      congr 1
      push_cast
      ring
    calc (2 : ℚ) ^ ((bn : ℤ) - bd - 1) * (q.den : ℚ)
        < (2 : ℚ) ^ ((bn : ℤ) - bd - 1) * ((2 ^ (bd + 1) : ℕ) : ℚ) := by
          apply mul_lt_mul_of_pos_left h2 (by positivity)
      _ = ((2 ^ bn : ℕ) : ℚ) := hsplit
      _ ≤ (q.num.natAbs : ℚ) := h1
  simp only [ilog2]
  rw [← hbn, ← hbd]
  split_ifs with h
  · exact ⟨h, hA⟩
  · push_neg at h
    constructor
    · exact le_of_lt hB
    · have he : (bn : ℤ) - bd - 1 + 1 = (bn : ℤ) - bd := by ring
      rw [he]
      exact h

theorem fl32_zero : fl32 0 = 0 := by
  unfold fl32
  simp

theorem fl32_err (q : ℚ) : |fl32 q - q| ≤ |q| / 16777216 := by
  by_cases hq : q = 0
  · subst hq; simp [fl32_zero]
  · have habs : 0 < |q| := abs_pos.mpr hq
    set e : ℤ := ilog2 q with he
    have hbase : (2 : ℚ) ^ e ≤ |q| := (ilog2_spec q hq).1
    have h2 : (2 : ℚ) ≠ 0 := two_ne_zero
    have hqeq : q * 2 ^ ((23 : ℤ) - e) * 2 ^ (e - 23) = q := by
      rw [mul_assoc, ← zpow_add₀ h2]
      have : (23 : ℤ) - e + (e - 23) = 0 := by ring
      rw [this, zpow_zero, mul_one]
    have hfl : fl32 q - q
        = ((roundNE (q * 2 ^ ((23 : ℤ) - e)) : ℚ) - q * 2 ^ ((23 : ℤ) - e)) * 2 ^ (e - 23) := by
      unfold fl32
      rw [if_neg hq, ← he, sub_mul, hqeq]
    have hpos : (0 : ℚ) < 2 ^ (e - 23) := by positivity
    rw [hfl, abs_mul, abs_of_pos hpos]
    have hr := roundNE_err (q * 2 ^ ((23 : ℤ) - e))
    have hmul : |(roundNE (q * 2 ^ ((23 : ℤ) - e)) : ℚ) - q * 2 ^ ((23 : ℤ) - e)| * 2 ^ (e - 23)
        ≤ (1/2) * 2 ^ (e - 23) := by
      exact mul_le_mul_of_nonneg_right hr (le_of_lt hpos)
    refine le_trans hmul ?_
    have hsplit : (1/2 : ℚ) * 2 ^ (e - 23) = 2 ^ e / 16777216 := by
      have hzs : (2 : ℚ) ^ (e - 23) = 2 ^ e / 2 ^ (23 : ℤ) := zpow_sub₀ h2 e 23
      have h23 : ((2 : ℚ) ^ (23 : ℤ)) = 8388608 := by
        rw [show ((23 : ℤ)) = ((23 : ℕ) : ℤ) from rfl, zpow_natCast]
        norm_num
      rw [hzs, h23]
      ring
    rw [hsplit]
    exact div_le_div_of_nonneg_right hbase (by norm_num) |>.trans_eq rfl

theorem fl32_intCast (n : ℤ) (h : |n| ≤ 2 ^ 23) : fl32 (n : ℚ) = n := by
  by_cases hn : n = 0
  · subst hn; simp [fl32_zero]
  · have hq : (n : ℚ) ≠ 0 := Int.cast_ne_zero.mpr hn
    have habs : |(n : ℚ)| = ((|n| : ℤ) : ℚ) := by push_cast; rfl
    have h1 : (1 : ℚ) ≤ |(n : ℚ)| := by
      rw [habs]
      exact_mod_cast Int.one_le_abs hn
    set e : ℤ := ilog2 (n : ℚ) with he
    have hspec := ilog2_spec (n : ℚ) hq
    have he0 : 0 ≤ e := by
      by_contra hcon
      push_neg at hcon
      have hle : (2 : ℚ) ^ (e + 1) ≤ 1 :=
        zpow_le_one_of_nonpos (by norm_num) (by omega)
      have := hspec.2
      linarith
    have he23 : e ≤ 23 := by
      by_contra hcon
      push_neg at hcon
      have h24 : (2 : ℚ) ^ (24 : ℤ) ≤ (2 : ℚ) ^ e :=
        zpow_le_zpow_right₀ (by norm_num) (by omega)
      have hub : |(n : ℚ)| ≤ ((2 ^ 23 : ℤ) : ℚ) := by
        rw [habs]
        exact_mod_cast h
      have h2324 : ((2 ^ 23 : ℤ) : ℚ) < (2 : ℚ) ^ (24 : ℤ) := by
        rw [show ((24 : ℤ)) = ((24 : ℕ) : ℤ) from rfl, zpow_natCast]
        push_cast
        norm_num
      have := hspec.1
      linarith
    have hknat : ((23 : ℤ) - e).toNat = (23 - e) := Int.toNat_of_nonneg (by omega)
    set k : ℕ := ((23 : ℤ) - e).toNat with hk
    have hzk : (2 : ℚ) ^ ((23 : ℤ) - e) = (2 : ℚ) ^ (k : ℕ) := by
      rw [← zpow_natCast]
      congr 1
      omega
    have hint : (n : ℚ) * 2 ^ ((23 : ℤ) - e) = ((n * 2 ^ k : ℤ) : ℚ) := by
      rw [hzk]; push_cast; ring
    unfold fl32
    rw [if_neg hq, ← he, hint, roundNE_intCast]
    push_cast
    rw [mul_assoc, ← hzk, ← zpow_add₀ (two_ne_zero)]
    have : (23 : ℤ) - e + (e - 23) = 0 := by ring
    rw [this, zpow_zero, mul_one]

theorem cint_intCast (n : ℤ) : cint (n : ℚ) = n := by
  unfold cint
  split_ifs <;> simp

theorem abs_cint_le (q : ℚ) (c : ℤ) (hc : 0 ≤ c) (h : |q| < (c : ℚ) + 1) : |cint q| ≤ c := by
  unfold cint
  split_ifs with hq
  · have hfl : 0 ≤ ⌊q⌋ := Int.floor_nonneg.mpr hq
    rw [abs_of_nonneg hfl]
    have : ⌊q⌋ < c + 1 := by
      rw [Int.floor_lt]
      push_cast
      calc q ≤ |q| := le_abs_self q
        _ < (c : ℚ) + 1 := h
    omega
  · push_neg at hq
    have hce : ⌈q⌉ ≤ 0 := by
      rw [Int.ceil_le]
      push_cast
      exact le_of_lt hq
    rw [abs_of_nonpos hce]
    have : -(c + 1) < ⌈q⌉ := by
      rw [Int.lt_ceil]
      push_cast
      have : -q ≤ |q| := neg_le_abs q
      linarith
    omega

theorem cint_near (y : ℚ) (n M : ℤ) (hM : 0 < M) (δ : ℚ) (hδ0 : 0 ≤ δ)
    (hδ : (M : ℚ) * δ < 1) (h : |y - (n : ℚ) / M| ≤ δ) :
    |(cint y : ℚ) - (n : ℚ) / M| ≤ 1 := by
  have hMq : (0 : ℚ) < M := by exact_mod_cast hM
  have hM1 : (1 : ℚ) ≤ M := by exact_mod_cast hM
  have hδ1 : δ < 1 := by nlinarith
  set x : ℚ := (n : ℚ) / M with hx
  have hxM : x * M = n := div_mul_cancel₀ _ (ne_of_gt hMq)
  rw [abs_le] at h
  unfold cint
  split_ifs with hy
  · have hfl : (⌊y⌋ : ℚ) ≤ y := Int.floor_le y
    have hfu : y < ⌊y⌋ + 1 := Int.lt_floor_add_one y
    rw [abs_le]
    constructor
    · by_contra hcon
      push_neg at hcon
      have haq : ((n - ⌊y⌋ * M : ℤ) : ℚ) = (x - ⌊y⌋) * M := by
        push_cast
        rw [sub_mul, hxM]
      have h1 : (M : ℚ) < ((n - ⌊y⌋ * M : ℤ) : ℚ) := by
        rw [haq]
        have : (1 : ℚ) < x - ⌊y⌋ := by linarith
        nlinarith
      have h2 : ((n - ⌊y⌋ * M : ℤ) : ℚ) < M + 1 := by
        rw [haq]
        have hxub : x - ⌊y⌋ < 1 + δ := by linarith
        nlinarith
      have h1' : M < n - ⌊y⌋ * M := by exact_mod_cast h1
      have h2' : n - ⌊y⌋ * M < M + 1 := by exact_mod_cast h2
      omega
    · linarith
  · push_neg at hy
    have hcl : y ≤ ⌈y⌉ := Int.le_ceil y
    have hcu : (⌈y⌉ : ℚ) < y + 1 := Int.ceil_lt_add_one y
    rw [abs_le]
    constructor
    · linarith
    · by_contra hcon
      push_neg at hcon
      have haq : ((⌈y⌉ * M - n : ℤ) : ℚ) = ((⌈y⌉ : ℚ) - x) * M := by
        push_cast
        rw [sub_mul, hxM]
      have h1 : (M : ℚ) < ((⌈y⌉ * M - n : ℤ) : ℚ) := by
        rw [haq]
        have : (1 : ℚ) < (⌈y⌉ : ℚ) - x := by linarith
        nlinarith
      have h2 : ((⌈y⌉ * M - n : ℤ) : ℚ) < M + 1 := by
        rw [haq]
        have : (⌈y⌉ : ℚ) - x < 1 + δ := by linarith
        nlinarith
      have h1' : M < ⌈y⌉ * M - n := by exact_mod_cast h1
      have h2' : ⌈y⌉ * M - n < M + 1 := by exact_mod_cast h2
      omega

theorem cint_argmax (y : ℚ) (c : ℤ) (hc : 1 ≤ c) (δ : ℚ) (hδ0 : 0 ≤ δ) (hδ1 : δ < 1)
    (hlo : (c : ℚ) - δ ≤ |y|) (hhi : |y| < (c : ℚ) + 1) :
    c - 1 ≤ |cint y| ∧ |cint y| ≤ c := by
  have hcq : (1 : ℚ) ≤ (c : ℚ) := by exact_mod_cast hc
  refine ⟨?_, abs_cint_le y c (by omega) hhi⟩
  unfold cint
  split_ifs with hy
  · rw [abs_of_nonneg hy] at hlo hhi
    have h1 : c - 1 ≤ ⌊y⌋ := by
      rw [Int.le_floor]
      push_cast
      linarith
    have h0 : 0 ≤ ⌊y⌋ := by omega
    rw [abs_of_nonneg h0]
    exact h1
  · push_neg at hy
    rw [abs_of_neg hy] at hlo hhi
    have h1 : ⌈y⌉ ≤ -(c - 1) := by
      rw [Int.ceil_le]
      push_cast
      linarith
    have h0 : ⌈y⌉ ≤ 0 := by omega
    rw [abs_of_nonpos h0]
    omega

theorem ilog2_eq_of (q : ℚ) (e : ℤ) (hq : q ≠ 0)
    (hlo : (2 : ℚ) ^ e ≤ |q|) (hhi : |q| < 2 ^ (e + 1)) : ilog2 q = e := by
  obtain ⟨h1, h2⟩ := ilog2_spec q hq
  by_contra hne
  rcases lt_or_gt_of_ne hne with hlt | hgt
  · have : (2 : ℚ) ^ (ilog2 q + 1) ≤ 2 ^ e :=
      zpow_le_zpow_right₀ (by norm_num) (by omega)
    linarith
  · have : (2 : ℚ) ^ (e + 1) ≤ 2 ^ (ilog2 q) :=
      zpow_le_zpow_right₀ (by norm_num) (by omega)
    linarith

theorem fl32_eq_of (q : ℚ) (e m : ℤ) (hq : q ≠ 0)
    (hlo : (2 : ℚ) ^ e ≤ |q|) (hhi : |q| < 2 ^ (e + 1))
    (hm : roundNE (q * 2 ^ ((23 : ℤ) - e)) = m) : fl32 q = m * 2 ^ (e - 23) := by
  unfold fl32
  rw [if_neg hq, ilog2_eq_of q e hq hlo hhi, hm]

theorem roundNE_eq_low (q : ℚ) (f : ℤ) (hf : (f : ℚ) ≤ q) (hf2 : q < f + 1)
    (h : q - f < 1/2) : roundNE q = f := by
  have hfl : ⌊q⌋ = f := by
    rw [Int.floor_eq_iff]
    exact ⟨hf, by push_cast; push_cast at hf2; linarith⟩
  unfold roundNE
  simp only [hfl]
  rw [if_pos h]

theorem roundNE_eq_up (q : ℚ) (f : ℤ) (hf : (f : ℚ) ≤ q) (hf2 : q < f + 1)
    (h : 1/2 < q - f) : roundNE q = f + 1 := by
  have hfl : ⌊q⌋ = f := by
    rw [Int.floor_eq_iff]
    exact ⟨hf, by push_cast; push_cast at hf2; linarith⟩
  unfold roundNE
  simp only [hfl]
  rw [if_neg (by linarith), if_pos h]

theorem mixWheel_one (raw : ℤ) (h : |raw| ≤ 2 ^ 23) : mixWheel raw 1 = raw := by
  unfold mixWheel
  rw [mul_one, fl32_intCast raw h, cint_intCast]

theorem fl32_prod_close (raw M c : ℤ) (hc : 1 ≤ c) (hcM : c < M) (hr : |raw| ≤ M) :
    |fl32 ((raw : ℚ) * fl32 ((c : ℚ) / (M : ℚ))) - (raw : ℚ) * c / M| ≤ (c : ℚ) / 4194304 ∧
    |(raw : ℚ) * c / M| ≤ (c : ℚ) := by
  have hMq : (0 : ℚ) < (M : ℚ) := by exact_mod_cast (by omega : (0 : ℤ) < M)
  have hcq : (1 : ℚ) ≤ (c : ℚ) := by exact_mod_cast hc
  have hrq : |(raw : ℚ)| ≤ (M : ℚ) := by
    rw [← Int.cast_abs]
    exact_mod_cast hr
  have hquot : (0 : ℚ) < (c : ℚ) / M := by positivity
  have h1 : |fl32 ((c : ℚ) / M) - (c : ℚ) / M| ≤ ((c : ℚ) / M) / 16777216 := by
    have := fl32_err ((c : ℚ) / M)
    rwa [abs_of_pos hquot] at this
  have hx : |(raw : ℚ) * c / M| ≤ (c : ℚ) := by
    rw [abs_div, abs_mul, abs_of_pos hMq, Int.cast_abs.symm]
    rw [div_le_iff hMq]
    have : |(raw : ℚ)| * |(c : ℚ)| ≤ (M : ℚ) * |(c : ℚ)| :=
      mul_le_mul_of_nonneg_right hrq (abs_nonneg _)
    calc ((|raw| : ℤ) : ℚ) * |(c : ℚ)| = |(raw : ℚ)| * |(c : ℚ)| := by
          rw [Int.cast_abs]
      _ ≤ (M : ℚ) * |(c : ℚ)| := this
      _ = (c : ℚ) * M := by
          rw [abs_of_pos (by linarith : (0 : ℚ) < (c : ℚ))]
          ring
  have h2 : |(raw : ℚ) * fl32 ((c : ℚ) / M) - (raw : ℚ) * c / M| ≤ (c : ℚ) / 16777216 := by
    have heq : (raw : ℚ) * fl32 ((c : ℚ) / M) - (raw : ℚ) * c / M
        = (raw : ℚ) * (fl32 ((c : ℚ) / M) - (c : ℚ) / M) := by ring
    rw [heq, abs_mul]
    calc |(raw : ℚ)| * |fl32 ((c : ℚ) / M) - (c : ℚ) / M|
        ≤ (M : ℚ) * (((c : ℚ) / M) / 16777216) := by
          apply mul_le_mul hrq h1 (abs_nonneg _) (le_of_lt hMq)
      _ = (c : ℚ) / 16777216 := by
          field_simp
          ring
  have h3 : |(raw : ℚ) * fl32 ((c : ℚ) / M)| ≤ (c : ℚ) + (c : ℚ) / 16777216 := by
    have := abs_sub_abs_le_abs_sub ((raw : ℚ) * fl32 ((c : ℚ) / M)) ((raw : ℚ) * c / M)
    linarith
  have h4 : |fl32 ((raw : ℚ) * fl32 ((c : ℚ) / M)) - (raw : ℚ) * fl32 ((c : ℚ) / M)|
      ≤ ((c : ℚ) + (c : ℚ) / 16777216) / 16777216 := by
    have := fl32_err ((raw : ℚ) * fl32 ((c : ℚ) / M))
    have hmono : |(raw : ℚ) * fl32 ((c : ℚ) / M)| / 16777216
        ≤ ((c : ℚ) + (c : ℚ) / 16777216) / 16777216 := by
      apply div_le_div_of_nonneg_right h3 (by norm_num) |>.trans_eq rfl
    linarith
  constructor
  · have htot : |fl32 ((raw : ℚ) * fl32 ((c : ℚ) / M)) - (raw : ℚ) * c / M|
        ≤ (c : ℚ) / 16777216 + ((c : ℚ) + (c : ℚ) / 16777216) / 16777216 := by
      calc |fl32 ((raw : ℚ) * fl32 ((c : ℚ) / M)) - (raw : ℚ) * c / M|
          ≤ |fl32 ((raw : ℚ) * fl32 ((c : ℚ) / M)) - (raw : ℚ) * fl32 ((c : ℚ) / M)|
            + |(raw : ℚ) * fl32 ((c : ℚ) / M) - (raw : ℚ) * c / M| := by
            have := abs_sub_le (fl32 ((raw : ℚ) * fl32 ((c : ℚ) / M)))
              ((raw : ℚ) * fl32 ((c : ℚ) / M)) ((raw : ℚ) * c / M)
            linarith
        _ ≤ (c : ℚ) / 16777216 + ((c : ℚ) + (c : ℚ) / 16777216) / 16777216 := by linarith
    refine le_trans htot ?_
    linarith
  · exact hx

theorem mixWheel_scaled (raw M c : ℤ) (hc : 1 ≤ c) (hcM : c < M) (hr : |raw| ≤ M)
    (hsize : M * c < 4194304) :
    |mixWheel raw (fl32 ((c : ℚ) / (M : ℚ)))| ≤ c ∧
    |(mixWheel raw (fl32 ((c : ℚ) / (M : ℚ))) : ℚ) - (raw : ℚ) * c / M| ≤ 1 := by
  obtain ⟨hclose, hx⟩ := fl32_prod_close raw M c hc hcM hr
  have hcq : (1 : ℚ) ≤ (c : ℚ) := by exact_mod_cast hc
  have hMq : (0 : ℚ) < (M : ℚ) := by exact_mod_cast (by omega : (0 : ℤ) < M)
  have hsz : (M : ℚ) * c < 4194304 := by exact_mod_cast hsize
  have hM1 : (1 : ℚ) ≤ (M : ℚ) := by exact_mod_cast (by omega : (1 : ℤ) ≤ M)
  have hc422 : (c : ℚ) / 4194304 < 1 := by
    rw [div_lt_one (by norm_num)]
    nlinarith
  have hy : |fl32 ((raw : ℚ) * fl32 ((c : ℚ) / M))| < (c : ℚ) + 1 := by
    have := abs_sub_abs_le_abs_sub (fl32 ((raw : ℚ) * fl32 ((c : ℚ) / M))) ((raw : ℚ) * c / M)
    linarith
  constructor
  · exact abs_cint_le _ c (by omega) hy
  · have hdiv : (raw : ℚ) * c / M = ((raw * c : ℤ) : ℚ) / M := by push_cast; ring
    unfold mixWheel
    rw [hdiv]
    apply cint_near _ (raw * c) M (by omega) ((c : ℚ) / 4194304) (by positivity)
    · rw [mul_comm] at hsz
      calc (M : ℚ) * ((c : ℚ) / 4194304) = (c : ℚ) * M / 4194304 := by ring
        _ < 1 := by rw [div_lt_one (by norm_num)]; linarith
    · rw [← hdiv]
      exact hclose

theorem mixWheel_scaled_max (raw M c : ℤ) (hc : 1 ≤ c) (hcM : c < M) (hr : |raw| = M)
    (hsize : M * c < 4194304) :
    c - 1 ≤ |mixWheel raw (fl32 ((c : ℚ) / (M : ℚ)))| := by
  obtain ⟨hclose, _⟩ := fl32_prod_close raw M c hc hcM (le_of_eq hr)
  have hcq : (1 : ℚ) ≤ (c : ℚ) := by exact_mod_cast hc
  have hMq : (0 : ℚ) < (M : ℚ) := by exact_mod_cast (by omega : (0 : ℤ) < M)
  have hsz : (M : ℚ) * c < 4194304 := by exact_mod_cast hsize
  have hM1 : (1 : ℚ) ≤ (M : ℚ) := by exact_mod_cast (by omega : (1 : ℤ) ≤ M)
  have hc422 : (c : ℚ) / 4194304 < 1 := by
    rw [div_lt_one (by norm_num)]
    nlinarith
  have hxabs : |(raw : ℚ) * c / M| = (c : ℚ) := by
    rw [abs_div, abs_mul, abs_of_pos hMq, abs_of_pos (by linarith : (0 : ℚ) < (c : ℚ))]
    rw [← Int.cast_abs, hr]
    field_simp
  have hlo : (c : ℚ) - (c : ℚ) / 4194304 ≤ |fl32 ((raw : ℚ) * fl32 ((c : ℚ) / M))| := by
    have := abs_sub_abs_le_abs_sub ((raw : ℚ) * c / M) (fl32 ((raw : ℚ) * fl32 ((c : ℚ) / M)))
    rw [hxabs] at this
    rw [abs_sub_comm] at hclose
    linarith
  have hhi : |fl32 ((raw : ℚ) * fl32 ((c : ℚ) / M))| < (c : ℚ) + 1 := by
    have := abs_sub_abs_le_abs_sub (fl32 ((raw : ℚ) * fl32 ((c : ℚ) / M))) ((raw : ℚ) * c / M)
    rw [hxabs] at this
    linarith
  exact (cint_argmax _ c hc ((c : ℚ) / 4194304) (by positivity) hc422 hlo hhi).1

theorem abs_dz_le (v : ℤ) : |dz v| ≤ |v| := by
  unfold dz
  split_ifs
  · simpa using abs_nonneg v
  · exact le_rfl

theorem updateServoCmd_foldl_neutral (L : List ℕ)
    (hL : ∀ d ∈ L, (d &&& 0x01 = 0 ∧ d &&& 0x02 = 0) ∨ (d &&& 0x01 ≠ 0 ∧ d &&& 0x02 ≠ 0)) :
    ∀ x : ℤ, L.foldl updateServoCmd x = x := by
  induction L with
  | nil => intro x; rfl
  | cons d rest ih =>
    intro x
    have hd := hL d (List.mem_cons_self d rest)
    have hstep : updateServoCmd x d = x := by
      unfold updateServoCmd
      rcases hd with ⟨h1, h2⟩ | ⟨h1, h2⟩
      · rw [if_neg (by tauto), if_neg (by tauto)]
      · rw [if_neg (by tauto), if_neg (by tauto)]
    have hrest : ∀ d' ∈ rest, (d' &&& 0x01 = 0 ∧ d' &&& 0x02 = 0) ∨
        (d' &&& 0x01 ≠ 0 ∧ d' &&& 0x02 ≠ 0) :=
      fun d' hd' => hL d' (List.mem_cons_of_mem d hd')
    calc (d :: rest).foldl updateServoCmd x = rest.foldl updateServoCmd (updateServoCmd x d) := rfl
      _ = rest.foldl updateServoCmd x := by rw [hstep]
      _ = x := ih hrest x

theorem servo2_up_run (L : List (ℤ × ℤ))
    (hL : ∀ p ∈ L, p.1 > analogThreshold ∧ p.2 ≤ analogThreshold) :
    ∀ a : ℤ, a ≤ 180 → servo2Run L a = min 180 (a + servo2Step * L.length) := by
  induction L with
  | nil =>
    intro a ha
    simp only [servo2Run, List.foldl_nil, List.length_nil]
    omega
  | cons p rest ih =>
    intro a ha
    obtain ⟨hp1, hp2⟩ := hL p (List.mem_cons_self p rest)
    have hrest : ∀ q ∈ rest, q.1 > analogThreshold ∧ q.2 ≤ analogThreshold :=
      fun q hq => hL q (List.mem_cons_of_mem p hq)
    have hstep : servo2Tick a p.1 p.2 = min 180 (a + servo2Step) := by
      unfold servo2Tick
      rw [if_pos ⟨hp1, hp2⟩]
      simp only [servo2Step]
      split_ifs <;> omega
    have htick : servo2Run (p :: rest) a = servo2Run rest (servo2Tick a p.1 p.2) := rfl
    rw [htick, hstep, ih hrest (min 180 (a + servo2Step)) (by omega)]
    simp only [servo2Step, List.length_cons]
    push_cast
    omega

theorem servo2_down_run (L : List (ℤ × ℤ))
    (hL : ∀ p ∈ L, p.2 > analogThreshold ∧ p.1 ≤ analogThreshold) :
    ∀ a : ℤ, 0 ≤ a → servo2Run L a = max 0 (a - servo2Step * L.length) := by
  induction L with
  | nil =>
    intro a ha
    simp only [servo2Run, List.foldl_nil, List.length_nil]
    omega
  | cons p rest ih =>
    intro a ha
    obtain ⟨hp1, hp2⟩ := hL p (List.mem_cons_self p rest)
    have hrest : ∀ q ∈ rest, q.2 > analogThreshold ∧ q.1 ≤ analogThreshold :=
      fun q hq => hL q (List.mem_cons_of_mem p hq)
    have hstep : servo2Tick a p.1 p.2 = max 0 (a - servo2Step) := by
      unfold servo2Tick
      rw [if_neg (by simp only [analogThreshold] at hp1 hp2 ⊢; omega), if_pos ⟨hp1, hp2⟩]
      simp only [servo2Step]
      split_ifs <;> omega
    have htick : servo2Run (p :: rest) a = servo2Run rest (servo2Tick a p.1 p.2) := rfl
    rw [htick, hstep, ih hrest (max 0 (a - servo2Step)) (by omega)]
    simp only [servo2Step, List.length_cons]
    push_cast
    omega

set_option maxRecDepth 40000 in
/-- Claim C3: each of the four direction-packing drivers rewrites only its
own two bit positions of the shared direction byte: for every byte
state and every 2-bit direction code, the stored 2-bit fields of the other
three motors are unchanged, and the field the driver writes does not depend
on the previous byte state. -/
theorem C3_direction_byte_isolation : ∀ s < 256, ∀ d < 4,
    (getM2code (setM1dir s d) = getM2code s ∧ getM3code (setM1dir s d) = getM3code s ∧
     getM4code (setM1dir s d) = getM4code s ∧ getM1code (setM1dir s d) = getM1code (setM1dir 0 d)) ∧
    (getM1code (setM2dir s d) = getM1code s ∧ getM3code (setM2dir s d) = getM3code s ∧
     getM4code (setM2dir s d) = getM4code s ∧ getM2code (setM2dir s d) = getM2code (setM2dir 0 d)) ∧
    (getM1code (setM3dir s d) = getM1code s ∧ getM2code (setM3dir s d) = getM2code s ∧
     getM4code (setM3dir s d) = getM4code s ∧ getM3code (setM3dir s d) = getM3code (setM3dir 0 d)) ∧
    (getM1code (setM4dir s d) = getM1code s ∧ getM2code (setM4dir s d) = getM2code s ∧
     getM3code (setM4dir s d) = getM3code s ∧ getM4code (setM4dir s d) = getM4code (setM4dir 0 d)) := by
  decide

theorem C3_direction_byte_isolation_witness :
    (getM2code (setM1dir 181 2) = getM2code 181 ∧ getM3code (setM1dir 181 2) = getM3code 181 ∧
     getM4code (setM1dir 181 2) = getM4code 181 ∧
     getM1code (setM1dir 181 2) = getM1code (setM1dir 0 2)) ∧
    (getM1code (setM2dir 181 2) = getM1code 181 ∧ getM3code (setM2dir 181 2) = getM3code 181 ∧
     getM4code (setM2dir 181 2) = getM4code 181 ∧
     getM2code (setM2dir 181 2) = getM2code (setM2dir 0 2)) ∧
    (getM1code (setM3dir 181 2) = getM1code 181 ∧ getM2code (setM3dir 181 2) = getM2code 181 ∧
     getM4code (setM3dir 181 2) = getM4code 181 ∧
     getM3code (setM3dir 181 2) = getM3code (setM3dir 0 2)) ∧
    (getM1code (setM4dir 181 2) = getM1code 181 ∧ getM2code (setM4dir 181 2) = getM2code 181 ∧
     getM3code (setM4dir 181 2) = getM3code 181 ∧
     getM4code (setM4dir 181 2) = getM4code (setM4dir 0 2)) :=
  C3_direction_byte_isolation 181 (by decide) 2 (by decide)

/-- Claim C4: once the servo-1 latch holds +1 (set by a tick with the D-pad
increase bit pressed and the decrease bit clear), any run of producer ticks
in which both D-pad bits are pressed or neither is pressed leaves the latch
at +1, and the consumer writes 180 degrees from that latch on every tick. -/
theorem C4_servo1_latched_max (c : ℤ) (d0 : ℕ) (L : List ℕ) (a : ℤ)
    (hinc : d0 &&& 0x01 ≠ 0) (hdec : d0 &&& 0x02 = 0)
    (hL : ∀ d ∈ L, (d &&& 0x01 = 0 ∧ d &&& 0x02 = 0) ∨ (d &&& 0x01 ≠ 0 ∧ d &&& 0x02 ≠ 0)) :
    L.foldl updateServoCmd (updateServoCmd c d0) = 1 ∧
    servo1Target (L.foldl updateServoCmd (updateServoCmd c d0)) a = 180 := by
  have h0 : updateServoCmd c d0 = 1 := by
    unfold updateServoCmd
    rw [if_pos ⟨hinc, hdec⟩]
  have h1 : L.foldl updateServoCmd (updateServoCmd c d0) = 1 := by
    rw [h0]
    exact updateServoCmd_foldl_neutral L hL 1
  refine ⟨h1, ?_⟩
  rw [h1]
  rfl

theorem C4_servo1_latched_max_witness :
    [0, 3, 0].foldl updateServoCmd (updateServoCmd (-1) 1) = 1 ∧
    servo1Target ([0, 3, 0].foldl updateServoCmd (updateServoCmd (-1) 1)) 42 = 180 :=
  C4_servo1_latched_max (-1) 1 [0, 3, 0] 42 (by decide) (by decide) (by decide)

/-- Claim C5: from the boot angle 90, a run of consumer ticks with throttle
over the threshold and brake at most the threshold leaves servo 2 at
min 180 (90 + 5 N); a run of brake-only ticks leaves it at max 0 (90 - 5 N);
and a tick in which both or neither trigger exceeds the threshold leaves any
angle unchanged. -/
theorem C5_servo2_stepping (L L2 : List (ℤ × ℤ)) (t b : ℤ)
    (hL : ∀ p ∈ L, p.1 > analogThreshold ∧ p.2 ≤ analogThreshold)
    (hL2 : ∀ p ∈ L2, p.2 > analogThreshold ∧ p.1 ≤ analogThreshold)
    (hboth : (t > analogThreshold ∧ b > analogThreshold) ∨
      (t ≤ analogThreshold ∧ b ≤ analogThreshold)) :
    servo2Run L 90 = min 180 (90 + servo2Step * L.length) ∧
    servo2Run L2 90 = max 0 (90 - servo2Step * L2.length) ∧
    ∀ a : ℤ, servo2Tick a t b = a := by
  refine ⟨servo2_up_run L hL 90 (by omega), servo2_down_run L2 hL2 90 (by omega), ?_⟩
  intro a
  unfold servo2Tick
  rcases hboth with ⟨h1, h2⟩ | ⟨h1, h2⟩
  · rw [if_neg (by omega), if_neg (by omega)]
  · rw [if_neg (by omega), if_neg (by omega)]

theorem C5_servo2_stepping_witness :
    servo2Run [(500, 0), (500, 0)] 90 = min 180 (90 + servo2Step * ([(500, 0), (500, 0)] : List (ℤ × ℤ)).length) ∧
    servo2Run [(0, 500)] 90 = max 0 (90 - servo2Step * ([(0, 500)] : List (ℤ × ℤ)).length) ∧
    ∀ a : ℤ, servo2Tick a 0 0 = a :=
  C5_servo2_stepping [(500, 0), (500, 0)] [(0, 500)] 0 0 (by decide) (by decide) (by decide)

/-- Claim C6: the dead-zone filter maps every axis value of magnitude below
the threshold 200 to exactly zero and passes all other values through
unchanged. -/
theorem C6_deadzone (v : ℤ) :
    (|v| < DEADZONE → dz v = 0) ∧ (DEADZONE ≤ |v| → dz v = v) := by
  constructor
  · intro h
    unfold dz
    rw [if_pos h]
  · intro h
    unfold dz
    rw [if_neg (not_lt.mpr h)]

theorem C6_deadzone_witness : dz 150 = 0 ∧ dz (-199) = 0 ∧ dz 300 = 300 ∧ dz (-200) = -200 :=
  ⟨(C6_deadzone 150).1 (by decide), (C6_deadzone (-199)).1 (by decide),
   (C6_deadzone 300).2 (by decide), (C6_deadzone (-200)).2 (by decide)⟩

/-- Claim C7 counterexample: the producer (bluetooth) task does mutate
electromagnet state and the servo-1 latch: a snapshot with D-pad left engages
the electromagnet, and a snapshot with D-pad bit 0 rewrites the latch, both
inside the producer tick. -/
theorem C7_counterexample :
    (producerTick ⟨0, 0, 0, 0, 4, 0, 0⟩
        ⟨0, 0, 0, 0, 0, 0, 0, false, 0, 0, 90, 0⟩).emag_duty
      ≠ (⟨0, 0, 0, 0, 0, 0, 0, false, 0, 0, 90, 0⟩ : RobotState).emag_duty ∧
    (producerTick ⟨0, 0, 0, 0, 4, 0, 0⟩
        ⟨0, 0, 0, 0, 0, 0, 0, false, 0, 0, 90, 0⟩).emag_in1
      ≠ (⟨0, 0, 0, 0, 0, 0, 0, false, 0, 0, 90, 0⟩ : RobotState).emag_in1 ∧
    (producerTick ⟨0, 0, 0, 0, 1, 0, 0⟩
        ⟨0, 0, 0, 0, 0, 0, 0, false, 0, 0, 90, 0⟩).servo_command
      ≠ (⟨0, 0, 0, 0, 0, 0, 0, false, 0, 0, 90, 0⟩ : RobotState).servo_command := by
  refine ⟨?_, ?_, ?_⟩ <;> decide

/-- Claim C7 amended: servo angle state is mutated only by the consumer
(driving) task, while the servo-1 latch, the electromagnet outputs, the wheel
commands and the trigger copies are mutated only by the producer (bluetooth)
task: the producer tick preserves both servo angles and the direction byte,
and the consumer tick preserves the latch, the electromagnet state, the wheel
commands and the trigger values. -/
theorem C7_mutation_ownership (snap : Snapshot) (s : RobotState) :
    (producerTick snap s).current_servo_angle = s.current_servo_angle ∧
    (producerTick snap s).servo2_angle = s.servo2_angle ∧
    (producerTick snap s).motor_state = s.motor_state ∧
    (consumerTick s).servo_command = s.servo_command ∧
    (consumerTick s).emag_in1 = s.emag_in1 ∧
    (consumerTick s).emag_duty = s.emag_duty ∧
    (consumerTick s).m1_cmd = s.m1_cmd ∧
    (consumerTick s).m2_cmd = s.m2_cmd ∧
    (consumerTick s).m3_cmd = s.m3_cmd ∧
    (consumerTick s).m4_cmd = s.m4_cmd ∧
    (consumerTick s).throttle_value = s.throttle_value ∧
    (consumerTick s).brake_value = s.brake_value :=
  ⟨rfl, rfl, rfl, rfl, rfl, rfl, rfl, rfl, rfl, rfl, rfl, rfl⟩

theorem raw_le_maxVal (ly lx rx : ℤ) :
    |rawFL ly lx rx| ≤ maxVal ly lx rx ∧ |rawFR ly lx rx| ≤ maxVal ly lx rx ∧
    |rawBL ly lx rx| ≤ maxVal ly lx rx ∧ |rawBR ly lx rx| ≤ maxVal ly lx rx := by
  unfold maxVal
  exact ⟨(le_max_left _ _).trans (le_max_left _ _), (le_max_right _ _).trans (le_max_left _ _),
    (le_max_left _ _).trans (le_max_right _ _), (le_max_right _ _).trans (le_max_right _ _)⟩

theorem abs_sum3_le (a b c : ℤ) (ha : |a| ≤ 512) (hb : |b| ≤ 512) (hc : |c| ≤ 512) :
    |a + b + c| ≤ 1536 := by
  have h1 := abs_add a b
  have h2 := abs_add (a + b) c
  linarith

theorem maxVal_le_1536 (ly lx rx : ℤ) (hly : |ly| ≤ 512) (hlx : |lx| ≤ 512)
    (hrx : |rx| ≤ 512) : maxVal ly lx rx ≤ 1536 := by
  have h1 : |rawFL ly lx rx| ≤ 1536 := by
    unfold rawFL
    exact abs_sum3_le ly lx rx hly hlx hrx
  have h2 : |rawFR ly lx rx| ≤ 1536 := by
    unfold rawFR
    have he : ly - lx - rx = ly + (-lx) + (-rx) := by ring
    rw [he]
    exact abs_sum3_le ly (-lx) (-rx) hly (by rwa [abs_neg]) (by rwa [abs_neg])
  have h3 : |rawBL ly lx rx| ≤ 1536 := by
    unfold rawBL
    have he : ly - lx + rx = ly + (-lx) + rx := by ring
    rw [he]
    exact abs_sum3_le ly (-lx) rx hly (by rwa [abs_neg]) hrx
  have h4 : |rawBR ly lx rx| ≤ 1536 := by
    unfold rawBR
    have he : ly + lx - rx = ly + lx + (-rx) := by ring
    rw [he]
    exact abs_sum3_le ly lx (-rx) hly hlx (by rwa [abs_neg])
  unfold maxVal
  exact max_le (max_le h1 h2) (max_le h3 h4)

theorem cap_bounds (p : Bool) : 1 ≤ cap p ∧ cap p ≤ 220 := by
  cases p <;> simp [cap, PRECISION_SPEED, NORMAL_SPEED]

theorem desiredMax_cast (p : Bool) : desiredMax p = ((cap p : ℤ) : ℚ) := by
  cases p <;> simp [desiredMax, cap]

theorem mixWheel_cap (ly lx rx : ℤ) (p : Bool) (raw : ℤ)
    (hraw : |raw| ≤ maxVal ly lx rx) (hM : maxVal ly lx rx ≤ 1536) :
    |mixWheel raw (factor ly lx rx p)| ≤ cap p := by
  obtain ⟨hc1, hc2⟩ := cap_bounds p
  unfold factor
  rw [desiredMax_cast p]
  split_ifs with hcond
  · have hcM : cap p < maxVal ly lx rx := by exact_mod_cast hcond
    have hsize : maxVal ly lx rx * cap p < 4194304 := by nlinarith
    exact (mixWheel_scaled raw (maxVal ly lx rx) (cap p) hc1 hcM hraw hsize).1
  · push_neg at hcond
    have hMc : maxVal ly lx rx ≤ cap p := by exact_mod_cast hcond
    have hr : |raw| ≤ cap p := le_trans hraw hMc
    rw [mixWheel_one raw (by rw [show ((2 : ℤ) ^ 23) = 8388608 from by norm_num]; omega)]
    exact hr

theorem mixCore_bound (ly lx rx : ℤ) (p : Bool) (hly : |ly| ≤ 512) (hlx : |lx| ≤ 512)
    (hrx : |rx| ≤ 512) :
    |(mixCore ly lx rx p).fl| ≤ cap p ∧ |(mixCore ly lx rx p).fr| ≤ cap p ∧
    |(mixCore ly lx rx p).bl| ≤ cap p ∧ |(mixCore ly lx rx p).br| ≤ cap p := by
  obtain ⟨h1, h2, h3, h4⟩ := raw_le_maxVal ly lx rx
  have hM := maxVal_le_1536 ly lx rx hly hlx hrx
  exact ⟨mixWheel_cap ly lx rx p _ h1 hM, mixWheel_cap ly lx rx p _ h2 hM,
    mixWheel_cap ly lx rx p _ h3 hM, mixWheel_cap ly lx rx p _ h4 hM⟩

/-- Claim C1: for every controller snapshot (axes in the controller range)
and every precision flag, each of the four wheel commands produced by the
mixer has magnitude at most the selected cap: PRECISION_SPEED (152) when the
precision button is held and NORMAL_SPEED (220) otherwise. -/
theorem C1_wheel_commands_capped (ax ay arx : ℤ) (buttons : ℕ)
    (h1 : -511 ≤ ax) (h2 : ax ≤ 512) (h3 : -511 ≤ ay) (h4 : ay ≤ 512)
    (h5 : -511 ≤ arx) (h6 : arx ≤ 512) :
    |(mix ax ay arx buttons).fl| ≤ cap (precisionMode buttons) ∧
    |(mix ax ay arx buttons).fr| ≤ cap (precisionMode buttons) ∧
    |(mix ax ay arx buttons).bl| ≤ cap (precisionMode buttons) ∧
    |(mix ax ay arx buttons).br| ≤ cap (precisionMode buttons) := by
  unfold mix
  apply mixCore_bound
  · rw [abs_neg]
    refine le_trans (abs_dz_le ay) ?_
    rw [abs_le]
    omega
  · refine le_trans (abs_dz_le ax) ?_
    rw [abs_le]
    omega
  · refine le_trans (abs_dz_le (-arx)) ?_
    rw [abs_neg, abs_le]
    omega

theorem C1_wheel_commands_capped_witness :
    |(mix 0 (-300) 0 0).fl| ≤ cap (precisionMode 0) ∧
    |(mix 0 (-300) 0 0).fr| ≤ cap (precisionMode 0) ∧
    |(mix 0 (-300) 0 0).bl| ≤ cap (precisionMode 0) ∧
    |(mix 0 (-300) 0 0).br| ≤ cap (precisionMode 0) :=
  C1_wheel_commands_capped 0 (-300) 0 0 (by decide) (by decide) (by decide) (by decide)
    (by decide) (by decide)

/-- Claim C9: pure forward input within the cap passes through the mixer
unchanged: for forward = X, strafe = 0, rotate = 0 with the magnitude of X
at most the selected cap, all four wheel commands equal X. -/
theorem C9_pure_forward_identity (X : ℤ) (p : Bool) (h : |X| ≤ cap p) :
    (mixCore X 0 0 p).fl = X ∧ (mixCore X 0 0 p).fr = X ∧
    (mixCore X 0 0 p).bl = X ∧ (mixCore X 0 0 p).br = X := by
  obtain ⟨hc1, hc2⟩ := cap_bounds p
  have hraw : rawFL X 0 0 = X ∧ rawFR X 0 0 = X ∧ rawBL X 0 0 = X ∧ rawBR X 0 0 = X := by
    unfold rawFL rawFR rawBL rawBR
    omega
  have hMv : maxVal X 0 0 = |X| := by
    unfold maxVal
    rw [hraw.1, hraw.2.1, hraw.2.2.1, hraw.2.2.2]
    simp
  have hfac : factor X 0 0 p = 1 := by
    unfold factor
    rw [hMv, desiredMax_cast p, if_neg]
    push_neg
    exact_mod_cast h
  have hone : ∀ raw : ℤ, raw = X → mixWheel raw (factor X 0 0 p) = X := by
    intro raw hr
    rw [hr, hfac]
    exact mixWheel_one X (by rw [show ((2 : ℤ) ^ 23) = 8388608 from by norm_num]; omega)
  exact ⟨hone _ hraw.1, hone _ hraw.2.1, hone _ hraw.2.2.1, hone _ hraw.2.2.2⟩

theorem C9_pure_forward_identity_witness :
    (mixCore 215 0 0 false).fl = 215 ∧ (mixCore 215 0 0 false).fr = 215 ∧
    (mixCore 215 0 0 false).bl = 215 ∧ (mixCore 215 0 0 false).br = 215 :=
  C9_pure_forward_identity 215 false (by decide)

theorem setSigned_speed (v : ℤ) (h : v.natAbs < 256) :
    (setM1Signed v).1 = v.natAbs ∧ (setM2Signed v).1 = v.natAbs ∧
    (setM3Signed v).1 = v.natAbs ∧ (setM4Signed v).1 = v.natAbs := by
  have h1 : (setM1Signed v).1 = v.natAbs := by
    unfold setM1Signed uint8cast
    split_ifs <;> simp <;> omega
  have h2 : (setM2Signed v).1 = v.natAbs := by
    unfold setM2Signed uint8cast
    split_ifs <;> simp <;> omega
  have h3 : (setM3Signed v).1 = v.natAbs := by
    unfold setM3Signed uint8cast
    split_ifs <;> simp <;> omega
  have h4 : (setM4Signed v).1 = v.natAbs := by
    unfold setM4Signed uint8cast
    split_ifs <;> simp <;> omega
  exact ⟨h1, h2, h3, h4⟩

/-- Claim C10: every reachable wheel command has magnitude at most
NORMAL_SPEED = 220 which is under 256, so the (uint8_t)abs(value) conversion
in the signed motor drivers is exact (no truncation) and every PWM speed
byte handed to the hardware is at most 255. -/
theorem C10_duty_in_range (ax ay arx : ℤ) (buttons : ℕ)
    (h1 : -511 ≤ ax) (h2 : ax ≤ 512) (h3 : -511 ≤ ay) (h4 : ay ≤ 512)
    (h5 : -511 ≤ arx) (h6 : arx ≤ 512) :
    ((setM1Signed (mix ax ay arx buttons).fl).1 = ((mix ax ay arx buttons).fl).natAbs ∧
      ((mix ax ay arx buttons).fl).natAbs ≤ 220) ∧
    ((setM2Signed (mix ax ay arx buttons).fr).1 = ((mix ax ay arx buttons).fr).natAbs ∧
      ((mix ax ay arx buttons).fr).natAbs ≤ 220) ∧
    ((setM3Signed (mix ax ay arx buttons).bl).1 = ((mix ax ay arx buttons).bl).natAbs ∧
      ((mix ax ay arx buttons).bl).natAbs ≤ 220) ∧
    ((setM4Signed (mix ax ay arx buttons).br).1 = ((mix ax ay arx buttons).br).natAbs ∧
      ((mix ax ay arx buttons).br).natAbs ≤ 220) := by
  have hly : |(-(dz ay))| ≤ 512 := by
    rw [abs_neg]
    refine le_trans (abs_dz_le ay) ?_
    rw [abs_le]
    omega
  have hlx : |dz ax| ≤ 512 := by
    refine le_trans (abs_dz_le ax) ?_
    rw [abs_le]
    omega
  have hrx : |dz (-arx)| ≤ 512 := by
    refine le_trans (abs_dz_le (-arx)) ?_
    rw [abs_neg, abs_le]
    omega
  obtain ⟨b1, b2, b3, b4⟩ :=
    mixCore_bound (-(dz ay)) (dz ax) (dz (-arx)) (precisionMode buttons) hly hlx hrx
  have hcap : cap (precisionMode buttons) ≤ 220 := (cap_bounds _).2
  have habs : ∀ v : ℤ, |v| ≤ cap (precisionMode buttons) →
      (setM1Signed v).1 = v.natAbs ∧ (setM2Signed v).1 = v.natAbs ∧
      (setM3Signed v).1 = v.natAbs ∧ (setM4Signed v).1 = v.natAbs ∧ v.natAbs ≤ 220 := by
    intro v hv
    rw [Int.abs_eq_natAbs] at hv
    have hn : v.natAbs ≤ 220 := by omega
    obtain ⟨s1, s2, s3, s4⟩ := setSigned_speed v (by omega)
    exact ⟨s1, s2, s3, s4, hn⟩
  obtain ⟨s1, _, _, _, n1⟩ := habs _ b1
  obtain ⟨_, s2, _, _, n2⟩ := habs _ b2
  obtain ⟨_, _, s3, _, n3⟩ := habs _ b3
  obtain ⟨_, _, _, s4, n4⟩ := habs _ b4
  exact ⟨⟨s1, n1⟩, ⟨s2, n2⟩, ⟨s3, n3⟩, ⟨s4, n4⟩⟩

theorem C10_duty_in_range_witness :
    ((setM1Signed (mix 0 (-300) 0 0).fl).1 = ((mix 0 (-300) 0 0).fl).natAbs ∧
      ((mix 0 (-300) 0 0).fl).natAbs ≤ 220) ∧
    ((setM2Signed (mix 0 (-300) 0 0).fr).1 = ((mix 0 (-300) 0 0).fr).natAbs ∧
      ((mix 0 (-300) 0 0).fr).natAbs ≤ 220) ∧
    ((setM3Signed (mix 0 (-300) 0 0).bl).1 = ((mix 0 (-300) 0 0).bl).natAbs ∧
      ((mix 0 (-300) 0 0).bl).natAbs ≤ 220) ∧
    ((setM4Signed (mix 0 (-300) 0 0).br).1 = ((mix 0 (-300) 0 0).br).natAbs ∧
      ((mix 0 (-300) 0 0).br).natAbs ≤ 220) :=
  C10_duty_in_range 0 (-300) 0 0 (by decide) (by decide) (by decide) (by decide)
    (by decide) (by decide)

/-- Claim C2, amended: when maxVal exceeds the cap, all four raw values are
scaled by the single float factor cap/maxVal, so each integer output is
within 1 of the exact real scaling raw*cap/maxVal (the commanded ratios are
preserved up to rounding) and the largest output magnitude equals cap or
cap - 1: the float rounding of the factor can lose exactly one count. -/
theorem C2_uniform_scaling (ly lx rx : ℤ) (p : Bool)
    (hly : |ly| ≤ 512) (hlx : |lx| ≤ 512) (hrx : |rx| ≤ 512)
    (h : cap p < maxVal ly lx rx) :
    (|((mixCore ly lx rx p).fl : ℚ) - (rawFL ly lx rx : ℚ) * cap p / maxVal ly lx rx| ≤ 1 ∧
     |((mixCore ly lx rx p).fr : ℚ) - (rawFR ly lx rx : ℚ) * cap p / maxVal ly lx rx| ≤ 1 ∧
     |((mixCore ly lx rx p).bl : ℚ) - (rawBL ly lx rx : ℚ) * cap p / maxVal ly lx rx| ≤ 1 ∧
     |((mixCore ly lx rx p).br : ℚ) - (rawBR ly lx rx : ℚ) * cap p / maxVal ly lx rx| ≤ 1) ∧
    cap p - 1 ≤ max (max |(mixCore ly lx rx p).fl| |(mixCore ly lx rx p).fr|)
        (max |(mixCore ly lx rx p).bl| |(mixCore ly lx rx p).br|) ∧
    max (max |(mixCore ly lx rx p).fl| |(mixCore ly lx rx p).fr|)
        (max |(mixCore ly lx rx p).bl| |(mixCore ly lx rx p).br|) ≤ cap p := by
  obtain ⟨hc1, hc2⟩ := cap_bounds p
  have hM := maxVal_le_1536 ly lx rx hly hlx hrx
  have hsize : maxVal ly lx rx * cap p < 4194304 := by nlinarith
  obtain ⟨hr1, hr2, hr3, hr4⟩ := raw_le_maxVal ly lx rx
  have hfac : factor ly lx rx p =
      fl32 (((cap p : ℤ) : ℚ) / ((maxVal ly lx rx : ℤ) : ℚ)) := by
    unfold factor
    rw [desiredMax_cast p, if_pos (by exact_mod_cast h)]
  have e1 : (mixCore ly lx rx p).fl = mixWheel (rawFL ly lx rx) (factor ly lx rx p) := rfl
  have e2 : (mixCore ly lx rx p).fr = mixWheel (rawFR ly lx rx) (factor ly lx rx p) := rfl
  have e3 : (mixCore ly lx rx p).bl = mixWheel (rawBL ly lx rx) (factor ly lx rx p) := rfl
  have e4 : (mixCore ly lx rx p).br = mixWheel (rawBR ly lx rx) (factor ly lx rx p) := rfl
  have hsc := fun raw hr => mixWheel_scaled raw (maxVal ly lx rx) (cap p) hc1 h hr hsize
  refine ⟨⟨?_, ?_, ?_, ?_⟩, ?_, ?_⟩
  · rw [e1, hfac]
    exact (hsc _ hr1).2
  · rw [e2, hfac]
    exact (hsc _ hr2).2
  · rw [e3, hfac]
    exact (hsc _ hr3).2
  · rw [e4, hfac]
    exact (hsc _ hr4).2
  · have key : ∀ raw : ℤ, |raw| = maxVal ly lx rx →
        cap p - 1 ≤ |mixWheel raw (factor ly lx rx p)| := by
      intro raw hr
      rw [hfac]
      exact mixWheel_scaled_max raw _ _ hc1 h hr hsize
    rw [e1, e2, e3, e4]
    rcases max_choice (max |rawFL ly lx rx| |rawFR ly lx rx|)
        (max |rawBL ly lx rx| |rawBR ly lx rx|) with hmv | hmv <;>
      [rcases max_choice |rawFL ly lx rx| |rawFR ly lx rx| with hm2 | hm2;
       rcases max_choice |rawBL ly lx rx| |rawBR ly lx rx| with hm2 | hm2]
    · have hk := key (rawFL ly lx rx) (by unfold maxVal; omega)
      have hle : |mixWheel (rawFL ly lx rx) (factor ly lx rx p)| ≤
          max (max |mixWheel (rawFL ly lx rx) (factor ly lx rx p)|
            |mixWheel (rawFR ly lx rx) (factor ly lx rx p)|)
          (max |mixWheel (rawBL ly lx rx) (factor ly lx rx p)|
            |mixWheel (rawBR ly lx rx) (factor ly lx rx p)|) :=
        (le_max_left _ _).trans (le_max_left _ _)
      omega
    · have hk := key (rawFR ly lx rx) (by unfold maxVal; omega)
      have hle : |mixWheel (rawFR ly lx rx) (factor ly lx rx p)| ≤
          max (max |mixWheel (rawFL ly lx rx) (factor ly lx rx p)|
            |mixWheel (rawFR ly lx rx) (factor ly lx rx p)|)
          (max |mixWheel (rawBL ly lx rx) (factor ly lx rx p)|
            |mixWheel (rawBR ly lx rx) (factor ly lx rx p)|) :=
        (le_max_right _ _).trans (le_max_left _ _)
      omega
    · have hk := key (rawBL ly lx rx) (by unfold maxVal; omega)
      have hle : |mixWheel (rawBL ly lx rx) (factor ly lx rx p)| ≤
          max (max |mixWheel (rawFL ly lx rx) (factor ly lx rx p)|
            |mixWheel (rawFR ly lx rx) (factor ly lx rx p)|)
          (max |mixWheel (rawBL ly lx rx) (factor ly lx rx p)|
            |mixWheel (rawBR ly lx rx) (factor ly lx rx p)|) :=
        (le_max_left _ _).trans (le_max_right _ _)
      omega
    · have hk := key (rawBR ly lx rx) (by unfold maxVal; omega)
      have hle : |mixWheel (rawBR ly lx rx) (factor ly lx rx p)| ≤
          max (max |mixWheel (rawFL ly lx rx) (factor ly lx rx p)|
            |mixWheel (rawFR ly lx rx) (factor ly lx rx p)|)
          (max |mixWheel (rawBL ly lx rx) (factor ly lx rx p)|
            |mixWheel (rawBR ly lx rx) (factor ly lx rx p)|) :=
        (le_max_right _ _).trans (le_max_right _ _)
      omega
  · rw [e1, e2, e3, e4, hfac]
    exact max_le (max_le ((hsc _ hr1).1) ((hsc _ hr2).1))
      (max_le ((hsc _ hr3).1) ((hsc _ hr4).1))

theorem C2_uniform_scaling_witness :
    (|((mixCore 300 0 0 false).fl : ℚ) - (rawFL 300 0 0 : ℚ) * cap false / maxVal 300 0 0| ≤ 1 ∧
     |((mixCore 300 0 0 false).fr : ℚ) - (rawFR 300 0 0 : ℚ) * cap false / maxVal 300 0 0| ≤ 1 ∧
     |((mixCore 300 0 0 false).bl : ℚ) - (rawBL 300 0 0 : ℚ) * cap false / maxVal 300 0 0| ≤ 1 ∧
     |((mixCore 300 0 0 false).br : ℚ) - (rawBR 300 0 0 : ℚ) * cap false / maxVal 300 0 0| ≤ 1) ∧
    cap false - 1 ≤ max (max |(mixCore 300 0 0 false).fl| |(mixCore 300 0 0 false).fr|)
        (max |(mixCore 300 0 0 false).bl| |(mixCore 300 0 0 false).br|) ∧
    max (max |(mixCore 300 0 0 false).fl| |(mixCore 300 0 0 false).fr|)
        (max |(mixCore 300 0 0 false).bl| |(mixCore 300 0 0 false).br|) ≤ cap false :=
  C2_uniform_scaling 300 0 0 false (by decide) (by decide) (by decide) (by decide)

/-- Claim C2, counterexample to the claim as stated: for the reachable input
with dead-zone-filtered forward 268 (axisY = -268), strafe 0, rotate 0 in
normal mode, maxVal = 268 exceeds the cap 220, yet all four scaled outputs
are 219 because the float factor 220/268 rounds slightly low, so the largest
scaled magnitude is 219 and not exactly 220. -/
theorem C2_exact_cap_counterexample :
    cap (precisionMode 0) < maxVal (-(dz (-268))) (dz 0) (dz (-0)) ∧
    (mix 0 (-268) 0 0).fl = 219 ∧ (mix 0 (-268) 0 0).fr = 219 ∧
    (mix 0 (-268) 0 0).bl = 219 ∧ (mix 0 (-268) 0 0).br = 219 ∧
    max (max |(mix 0 (-268) 0 0).fl| |(mix 0 (-268) 0 0).fr|)
      (max |(mix 0 (-268) 0 0).bl| |(mix 0 (-268) 0 0).br|) ≠ cap (precisionMode 0) := by
  have hmix : mix 0 (-268) 0 0 = mixCore 268 0 0 false := by
    unfold mix
    have hdz0 : dz 0 = 0 := by decide
    have hdzn : dz (-268) = -268 := by decide
    have hdzz : dz (-(0 : ℤ)) = 0 := by decide
    have hpm : precisionMode 0 = false := by decide
    rw [hdz0, hdzn, hdzz, hpm]
    norm_num
  have hphi : fl32 ((220 : ℚ) / 268) = 13772341 * (2 : ℚ) ^ ((-1 : ℤ) - 23) := by
    apply fl32_eq_of _ (-1) 13772341 (by norm_num)
    · rw [abs_of_pos (by norm_num : (0 : ℚ) < 220 / 268)]
      norm_num
    · rw [abs_of_pos (by norm_num : (0 : ℚ) < 220 / 268)]
      norm_num
    · apply roundNE_eq_low _ 13772341 <;> norm_num
  have hphiv : fl32 ((220 : ℚ) / 268) = 13772341 / 16777216 := by
    rw [hphi]
    norm_num
  have hyv : fl32 ((268 : ℚ) * fl32 ((220 : ℚ) / 268)) = 14417919 / 65536 := by
    rw [hphiv]
    have hin : (268 : ℚ) * (13772341 / 16777216) = 922746847 / 4194304 := by norm_num
    rw [hin]
    have hfe : fl32 ((922746847 : ℚ) / 4194304) = 14417919 * (2 : ℚ) ^ ((7 : ℤ) - 23) := by
      apply fl32_eq_of _ 7 14417919 (by norm_num)
      · rw [abs_of_pos (by norm_num : (0 : ℚ) < 922746847 / 4194304)]
        norm_num
      · rw [abs_of_pos (by norm_num : (0 : ℚ) < 922746847 / 4194304)]
        norm_num
      · apply roundNE_eq_low _ 14417919 <;> norm_num
    rw [hfe]
    norm_num
  have hwheel : mixWheel 268 (fl32 ((220 : ℚ) / 268)) = 219 := by
    unfold mixWheel
    have hc : ((268 : ℤ) : ℚ) = (268 : ℚ) := by norm_num
    rw [hc, hyv]
    unfold cint
    rw [if_pos (by norm_num)]
    norm_num
  have hMv : maxVal 268 0 0 = 268 := by decide
  have hfacv : factor 268 0 0 false = fl32 ((220 : ℚ) / 268) := by
    have hd : desiredMax false = (220 : ℚ) := by norm_num [desiredMax, NORMAL_SPEED]
    unfold factor
    rw [hMv, hd, if_pos (by norm_num)]
    norm_num
  have hraw1 : rawFL 268 0 0 = 268 := by decide
  have hraw2 : rawFR 268 0 0 = 268 := by decide
  have hraw3 : rawBL 268 0 0 = 268 := by decide
  have hraw4 : rawBR 268 0 0 = 268 := by decide
  have hfl : (mix 0 (-268) 0 0).fl = 219 := by
    rw [hmix, show (mixCore 268 0 0 false).fl
      = mixWheel (rawFL 268 0 0) (factor 268 0 0 false) from rfl, hraw1, hfacv, hwheel]
  have hfr : (mix 0 (-268) 0 0).fr = 219 := by
    rw [hmix, show (mixCore 268 0 0 false).fr
      = mixWheel (rawFR 268 0 0) (factor 268 0 0 false) from rfl, hraw2, hfacv, hwheel]
  have hbl : (mix 0 (-268) 0 0).bl = 219 := by
    rw [hmix, show (mixCore 268 0 0 false).bl
      = mixWheel (rawBL 268 0 0) (factor 268 0 0 false) from rfl, hraw3, hfacv, hwheel]
  have hbr : (mix 0 (-268) 0 0).br = 219 := by
    rw [hmix, show (mixCore 268 0 0 false).br
      = mixWheel (rawBR 268 0 0) (factor 268 0 0 false) from rfl, hraw4, hfacv, hwheel]
  refine ⟨by decide, hfl, hfr, hbl, hbr, ?_⟩
  rw [hfl, hfr, hbl, hbr]
  decide

theorem selectController_fst_shift (x : Option (ℕ × Gamepad)) :
    Option.map Prod.fst (x.map (fun p => (p.1 + 1, p.2))) =
      (Option.map Prod.fst x).map (fun n => n + 1) := by
  cases x <;> rfl

/-- Claim C8: the slot-selection loop of the input task picks exactly one
slot deterministically: the selected slot is the one at the least index that
is connected with fresh data, every earlier slot is invalid, and the chosen
index depends only on the pattern of slot validity, so it does not move
between controllers from one tick to the next while the link states of the
slots are unchanged. -/
theorem C8_single_stable_slot : ∀ slots : List (Option Gamepad),
    (∀ i g, selectController slots = some (i, g) →
      slots[i]? = some (some g) ∧ validSlot (some g) = true ∧
      ∀ j, j < i → ∀ o, slots[j]? = some o → validSlot o = false) ∧
    (∀ slots2 : List (Option Gamepad), slots.map validSlot = slots2.map validSlot →
      Option.map Prod.fst (selectController slots) =
        Option.map Prod.fst (selectController slots2)) := by
  intro slots
  induction slots with
  | nil =>
    constructor
    · intro i g h
      simp [selectController] at h
    · intro slots2 h
      have : slots2 = [] := by
        cases slots2 with
        | nil => rfl
        | cons o2 r2 => simp at h
      subst this
      rfl
  | cons o rest ih =>
    obtain ⟨ih1, ih2⟩ := ih
    constructor
    · intro i g h
      cases o with
      | none =>
        have h2 : Option.map (fun p => (p.1 + 1, p.2)) (selectController rest) = some (i, g) := h
        cases hsel : selectController rest with
        | none => rw [hsel] at h2; simp at h2
        | some p =>
          rw [hsel] at h2
          simp only [Option.map_some', Option.some.injEq, Prod.mk.injEq] at h2
          obtain ⟨hi, hg⟩ := h2
          obtain ⟨ha, hb, hc⟩ := ih1 p.1 p.2 (by rw [hsel])
          refine ⟨?_, ?_, ?_⟩
          · rw [← hi, ← hg]
            simpa using ha
          · rw [← hg]
            exact hb
          · intro j hj o' ho'
            cases j with
            | zero =>
              simp only [List.getElem?_cons_zero, Option.some.injEq] at ho'
              rw [← ho']
              rfl
            | succ j' =>
              simp only [List.getElem?_cons_succ] at ho'
              exact hc j' (by omega) o' ho'
      | some g0 =>
        have h2 : (if g0.connected && g0.hasData then some (0, g0)
            else Option.map (fun p => (p.1 + 1, p.2)) (selectController rest)) = some (i, g) := h
        by_cases hv : g0.connected && g0.hasData
        · rw [if_pos hv] at h2
          simp only [Option.some.injEq, Prod.mk.injEq] at h2
          obtain ⟨hi, hg⟩ := h2
          refine ⟨?_, ?_, ?_⟩
          · rw [← hi, ← hg]
            simp
          · rw [← hg]
            simp [validSlot, hv]
          · intro j hj
            omega
        · rw [if_neg hv] at h2
          cases hsel : selectController rest with
          | none => rw [hsel] at h2; simp at h2
          | some p =>
            rw [hsel] at h2
            simp only [Option.map_some', Option.some.injEq, Prod.mk.injEq] at h2
            obtain ⟨hi, hg⟩ := h2
            obtain ⟨ha, hb, hc⟩ := ih1 p.1 p.2 (by rw [hsel])
            refine ⟨?_, ?_, ?_⟩
            · rw [← hi, ← hg]
              simpa using ha
            · rw [← hg]
              exact hb
            · intro j hj o' ho'
              cases j with
              | zero =>
                simp only [List.getElem?_cons_zero, Option.some.injEq] at ho'
                rw [← ho']
                simp only [validSlot]
                cases hgd : g0.connected && g0.hasData
                · rfl
                · exact absurd hgd hv
              | succ j' =>
                simp only [List.getElem?_cons_succ] at ho'
                exact hc j' (by omega) o' ho'
    · intro slots2 hmapeq
      cases slots2 with
      | nil => simp at hmapeq
      | cons o2 rest2 =>
        simp only [List.map_cons, List.cons.injEq] at hmapeq
        obtain ⟨hhead, htail⟩ := hmapeq
        have htails := ih2 rest2 htail
        cases o with
        | none =>
          cases o2 with
          | none =>
            simp only [selectController]
            rw [selectController_fst_shift, selectController_fst_shift, htails]
          | some g2 =>
            have hg2 : (g2.connected && g2.hasData) = false := by
              simpa [validSlot] using hhead.symm
            simp only [selectController]
            rw [if_neg (by simp [hg2])]
            rw [selectController_fst_shift, selectController_fst_shift, htails]
        | some g1 =>
          cases o2 with
          | none =>
            have hg1 : (g1.connected && g1.hasData) = false := by
              simpa [validSlot] using hhead
            simp only [selectController]
            rw [if_neg (by simp [hg1])]
            rw [selectController_fst_shift, selectController_fst_shift, htails]
          | some g2 =>
            have hval : (g1.connected && g1.hasData) = (g2.connected && g2.hasData) := by
              simpa [validSlot] using hhead
            simp only [selectController]
            by_cases hv : g1.connected && g1.hasData
            · rw [if_pos hv, if_pos (by rw [← hval]; exact hv)]
              rfl
            · rw [if_neg hv, if_neg (by rw [← hval]; exact hv)]
              rw [selectController_fst_shift, selectController_fst_shift, htails]

theorem C8_single_stable_slot_witness :
    ([none, some ⟨true, true⟩] : List (Option Gamepad))[1]? = some (some ⟨true, true⟩) ∧
    validSlot (some ⟨true, true⟩) = true ∧
    (∀ j, j < 1 → ∀ o, ([none, some ⟨true, true⟩] : List (Option Gamepad))[j]? = some o →
      validSlot o = false) ∧
    Option.map Prod.fst (selectController [none, some ⟨true, true⟩]) =
      Option.map Prod.fst (selectController [some ⟨true, false⟩, some ⟨true, true⟩]) := by
  have h := C8_single_stable_slot [none, some ⟨true, true⟩]
  obtain ⟨h1, h2, h3⟩ := h.1 1 ⟨true, true⟩ rfl
  exact ⟨h1, h2, h3, h.2 [some ⟨true, false⟩, some ⟨true, true⟩] rfl⟩

end Mapper
